import Mathlib

/-!
Shallow embedding of `gustaf/edges.py` (class `Edges`).

An `Edges` object owns a point cloud (`vertices`, rows of rational
coordinates) and an optional connectivity table (`_edges`, rows of integer
vertex indices; the slot is unset until the `edges` setter runs).  Python
exceptions are embedded with `Except PyErr`.

Code of the repository that is not under `src/` (the `Vertices` base class,
`helpers.data.make_tracked_array`, `utils.arr.unique_rows`) is modelled from
the specification; every such definition carries a doc comment starting with
"Modelled from the spec:".  Everything else is translated directly from
`src/gustaf/edges.py`.
-/

set_option maxRecDepth 10000

/-- Embedded Python exceptions raised by the code under consideration. -/
inductive PyErr where
  | typeError
  | attributeError
  | notImplementedError
  | shapeError
  deriving DecidableEq

/-- State of an `Edges` object: the point cloud owned by the `Vertices` base
class and the `_edges` slot (`none` while the slot was never assigned, in
which case reading it raises `AttributeError` because of `__slots__`). -/
structure Edges where
  vertices : List (List ℚ)
  _edges : Option (List (List ℤ))
  deriving DecidableEq

/-- Class attribute `Edges.kind = "edge"` (edges.py line 16). -/
def edgesKind : String := "edge"

/-- The `edges` property getter (edges.py lines 45-59): returns `self._edges`;
if the slot was never set, attribute lookup raises `AttributeError`. -/
def get_edges (s : Edges) : Except PyErr (List (List ℤ)) :=
  match s._edges with
  | some es => Except.ok es
  | none => Except.error PyErr.attributeError

/-- The `edges` property setter (edges.py lines 61-81): stores the rows as a
tracked array and keeps a non-writeable view.  `helpers.data.make_tracked_array`
is not under `src/`; Modelled from the spec: the TrackedArray contract
(spec 4.1) wraps the buffer preserving its contents — it performs no shape
validation — and the cast to `settings.INT_DTYPE` is the identity on integer
rows.  The setter therefore never raises and always replaces the slot. -/
def edges_setter (s : Edges) (es : List (List ℤ)) : Except PyErr Edges :=
  Except.ok ⟨s.vertices, some es⟩

/-- Well-shapedness of a connectivity argument for the edge kind: a
2-dimensional array whose rows have width 2.  (In the typed embedding the
argument is always a list of rows, so only the row-width part of numpy's
shape can be violated.) -/
def well_shaped (es : List (List ℤ)) : Prop :=
  ∀ r ∈ es, r.length = 2

instance (es : List (List ℤ)) : Decidable (well_shaped es) := by
  unfold well_shaped
  infer_instance

/-- The constructor `Edges.__init__` (edges.py lines 23-43): stores the
vertices (the `Vertices` base constructor is not under `src/`; Modelled from
the spec: the point cloud is created from the explicit rows), then assigns
`self.edges = edges` if `edges` is given, else `self.edges = elements` if
`elements` is given, else leaves the `_edges` slot unset. -/
def Edges.init (vertices : List (List ℚ))
    (edges elems : Option (List (List ℤ))) : Edges :=
  let s : Edges := ⟨vertices, none⟩
  match edges with
  | some es => ⟨s.vertices, some es⟩
  | none =>
    match elems with
    | some es => ⟨s.vertices, some es⟩
    | none => s

/-- The `elements` property getter (edges.py lines 83-105): for an `Edges`
object `type(self).__qualname__.lower()` is `"edges"`, so it returns
`getattr(self, "edges")`, i.e. the `edges` property value. -/
def elements_property (s : Edges) : Except PyErr (List (List ℤ)) :=
  get_edges s

/-- The method `update_elements` (edges.py lines 308-332).  Its first
statement is `new_elements = self.elements()[mask]`; `elements` is a
property, so `self.elements` evaluates to the stored connectivity array and
the trailing call applies that numpy array as a function, which raises
`TypeError`.  (If the `_edges` slot is unset, the property access itself
raises `AttributeError` first.)  Neither branch of `inplace` is ever
reached. -/
def update_elements (s : Edges) (_mask : List Bool) (_inplace : Bool) :
    Except PyErr (Option Edges) :=
  match elements_property s with
  | Except.error e => Except.error e
  | Except.ok _arr => Except.error PyErr.typeError

/-- The method `shrink` (edges.py lines 423-462).  Its first statement is
`elements = self.elements()`, which calls the value of the `elements`
property (a numpy array) as a function and raises `TypeError`, exactly as in
`update_elements`. -/
def shrink (s : Edges) (_ratio_arg : ℚ) (_map_vertexdata : Bool) :
    Except PyErr Edges :=
  match elements_property s with
  | Except.error e => Except.error e
  | Except.ok _arr => Except.error PyErr.typeError

/-- The method `subdivide` (edges.py lines 340-370): raises
`NotImplementedError` when `self.kind != "face"`.  The face branch dispatches
to external refinement kernels (`utils.connec`, not under `src/`) and falls
back to `None` for unknown topology; it is unreachable for `Edges`, whose
class attribute `kind` is `"edge"`, and is modelled by that fallback. -/
def subdivide (_s : Edges) : Except PyErr (Option Edges) :=
  if edgesKind = "face" then Except.ok none
  else Except.error PyErr.notImplementedError

/-- The subdivision count chosen by `dashed` (edges.py line 401) as a
function of an edge's Euclidean length and of the spacing:
`linspaces = ((distances // (spacing * 1.5)) + 1) * 3`, with numpy's `//`
being floor division.  The float literal `1.5` is exactly `3/2`. -/
def dashed_linspaces (dist spacing : ℚ) : ℤ :=
  (⌊dist / (spacing * (3 / 2))⌋ + 1) * 3

/-- Modelled from the spec's words (for comparison with `dashed_linspaces`):
"chooses a number of subdivisions `linspaces = round_up(length / (spacing *
1.5)) * 3` ensuring at least 3". -/
def dashed_linspaces_claimed (dist spacing : ℚ) : ℤ :=
  max 3 (⌈dist / (spacing * (3 / 2))⌉ * 3)

/-- Ascending sort of one connectivity row, as `np.ndarray.sort(axis=1)` does
row-wise in `sorted_edges` (edges.py line 220); realised by insertion sort. -/
def insertAsc (a : ℤ) : List ℤ → List ℤ
  | [] => [a]
  | b :: l => if a ≤ b then a :: b :: l else b :: insertAsc a l

/-- Row-wise canonical (ascending) form of a row. -/
def sortRow (r : List ℤ) : List ℤ :=
  r.foldr insertAsc []

/-- The computed quantity `sorted_edges` / `get_edges_sorted` (edges.py lines
206-222): a copy of the connectivity with every row sorted ascending. -/
def get_edges_sorted (edges : List (List ℤ)) : List (List ℤ) :=
  edges.map sortRow

/-- Index of the first occurrence of row `v` in `l` (length of `l` if `v`
does not occur). -/
def firstIdx : List (List ℤ) → List ℤ → ℕ
  | [], _ => 0
  | x :: xs, v => if x = v then 0 else firstIdx xs v + 1

/-- Number of occurrences of row `v` in `l`. -/
def countRow : List (List ℤ) → List ℤ → ℕ
  | [], _ => 0
  | x :: xs, v => (if x = v then 1 else 0) + countRow xs v

/-- Modelled from the spec: the stable-unique-rows primitive
`utils.arr.unique_rows` (spec 6) applied to the sorted table — the indices,
in ascending order, of the rows that are the first occurrence of their value
(one representative index per canonical group, groups in first-occurrence
order). -/
def unique_ids (srows : List (List ℤ)) : List ℕ :=
  (List.range srows.length).filter
    (fun i => decide (firstIdx srows (srows.getD i []) = i))

/-- Row selection by a list of indices (numpy fancy indexing `rows[ids]`). -/
def rowsAt (rows : List (List ℤ)) (ids : List ℕ) : List (List ℤ) :=
  ids.map (fun i => rows.getD i [])

/-- Modelled from the spec: the unique rows of the sorted table, in group
order (`unique_stuff[0]` of `utils.arr.unique_rows`). -/
def unique_rowvals (srows : List (List ℤ)) : List (List ℤ) :=
  rowsAt srows (unique_ids srows)

/-- Modelled from the spec: the inverse mapping of `utils.arr.unique_rows` —
for every row of the sorted table, the index of its canonical group. -/
def unique_inverse (srows : List (List ℤ)) : List ℕ :=
  srows.map (fun r => firstIdx (unique_rowvals srows) r)

/-- Modelled from the spec: the per-group occurrence count of
`utils.arr.unique_rows`. -/
def unique_counts (srows : List (List ℤ)) : List ℕ :=
  (unique_rowvals srows).map (fun v => countRow srows v)

/-- Attribute `edges_unique_id` set by `get_edges_unique` (edges.py line
247): the representative (first-occurrence) row index per canonical group. -/
def get_edges_unique_id (edges : List (List ℤ)) : List ℕ :=
  unique_ids (get_edges_sorted edges)

/-- The method `get_edges_unique` (edges.py lines 224-253): the unique edges,
taken from the ORIGINAL table (`self.edges[self.edges_unique_id]`, line 248)
so that each representative keeps its original orientation. -/
def get_edges_unique (edges : List (List ℤ)) : List (List ℤ) :=
  rowsAt edges (get_edges_unique_id edges)

/-- The method `get_edges_unique_inverse` (edges.py lines 271-289). -/
def get_edges_unique_inverse (edges : List (List ℤ)) : List ℕ :=
  unique_inverse (get_edges_sorted edges)

/-- Attribute `edges_unique_count` set by `get_edges_unique` (edges.py line
250). -/
def get_edges_unique_count (edges : List (List ℤ)) : List ℕ :=
  unique_counts (get_edges_sorted edges)

/-- Boolean-mask selection (numpy `a[mask]` for a boolean `mask`). -/
def maskSelect {α : Type} : List α → List Bool → List α
  | [], _ => []
  | _ :: _, [] => []
  | x :: xs, b :: bs => if b then x :: maskSelect xs bs else maskSelect xs bs

/-- The method `get_outlines` (edges.py lines 291-306), via the attribute
`outlines = self.edges_unique_id[self.edges_unique_count == 1]` (line 251). -/
def get_outlines (edges : List (List ℤ)) : List ℕ :=
  maskSelect (get_edges_unique_id edges)
    ((get_edges_unique_count edges).map (fun c => decide (c = 1)))

/-! Helper lemmas about `firstIdx`, `countRow` and list indexing. -/

theorem getD_mem_of_lt {α : Type} (l : List α) (i : ℕ) (d : α)
    (h : i < l.length) : l.getD i d ∈ l := by
  rw [List.getD_eq_getElem l d h]
  exact List.getElem_mem ..

theorem getD_map_of_lt {α β : Type} (f : α → β) (l : List α) (i : ℕ) (d : β)
    (d' : α) (h : i < l.length) : (l.map f).getD i d = f (l.getD i d') := by
  rw [List.getD_eq_getElem _ d (by simpa using h), List.getElem_map,
    List.getD_eq_getElem _ d' h]

theorem getD_range_map {α : Type} (f : ℕ → α) (n i : ℕ) (d : α) (h : i < n) :
    ((List.range n).map f).getD i d = f i := by
  rw [getD_map_of_lt f _ i d 0 (by simpa using h), List.getD_eq_getElem _ _ (by simpa using h),
    List.getElem_range]

theorem countRow_pos_of_getD {l : List (List ℤ)} {i : ℕ} (h : i < l.length) :
    0 < countRow l (l.getD i []) := by
  induction l generalizing i with
  | nil => simp at h
  | cons x xs ih =>
    cases i with
    | zero => simp [countRow]
    | succ j =>
      have hj : j < xs.length := by simpa using h
      have hr := ih hj
      rw [List.getD_cons_succ]
      show 0 < (if x = xs.getD j [] then 1 else 0) + countRow xs (xs.getD j [])
      omega

theorem firstIdx_lt_length {l : List (List ℤ)} {v : List ℤ}
    (h : 0 < countRow l v) : firstIdx l v < l.length := by
  induction l with
  | nil => simp [countRow] at h
  | cons x xs ih =>
    by_cases hx : x = v
    · simp [firstIdx, hx]
    · have h' : 0 < countRow xs v := by
        have : countRow (x :: xs) v = (if x = v then 1 else 0) + countRow xs v := rfl
        rw [this, if_neg hx] at h
        omega
      simp only [firstIdx, if_neg hx, List.length_cons]
      exact Nat.succ_lt_succ (ih h')

theorem getD_firstIdx {l : List (List ℤ)} {v : List ℤ}
    (h : 0 < countRow l v) : l.getD (firstIdx l v) [] = v := by
  induction l with
  | nil => simp [countRow] at h
  | cons x xs ih =>
    by_cases hx : x = v
    · simp [firstIdx, hx]
    · have h' : 0 < countRow xs v := by
        have : countRow (x :: xs) v = (if x = v then 1 else 0) + countRow xs v := rfl
        rw [this, if_neg hx] at h
        omega
      simp only [firstIdx, if_neg hx, List.getD_cons_succ]
      exact ih h'

theorem firstIdx_eq_of_count_one {l : List (List ℤ)} {i : ℕ}
    (h : i < l.length) (hc : countRow l (l.getD i []) = 1) :
    firstIdx l (l.getD i []) = i := by
  induction l generalizing i with
  | nil => simp at h
  | cons x xs ih =>
    cases i with
    | zero => simp [firstIdx]
    | succ j =>
      have hj : j < xs.length := by simpa using h
      rw [List.getD_cons_succ] at hc ⊢
      by_cases hx : x = xs.getD j []
      · exfalso
        have hpos : 0 < countRow xs (xs.getD j []) := countRow_pos_of_getD hj
        have : countRow (x :: xs) (xs.getD j []) =
            (if x = xs.getD j [] then 1 else 0) + countRow xs (xs.getD j []) := rfl
        rw [this, if_pos hx] at hc
        omega
      · have hc' : countRow xs (xs.getD j []) = 1 := by
          have : countRow (x :: xs) (xs.getD j []) =
              (if x = xs.getD j [] then 1 else 0) + countRow xs (xs.getD j []) := rfl
          rw [this, if_neg hx] at hc
          omega
        simp only [firstIdx, if_neg hx]
        rw [ih hj hc']

theorem mem_unique_ids {srows : List (List ℤ)} {i : ℕ} :
    i ∈ unique_ids srows ↔
      i < srows.length ∧ firstIdx srows (srows.getD i []) = i := by
  simp [unique_ids, List.mem_filter, List.mem_range]

theorem countRow_rowsAt_pos {srows : List (List ℤ)} {ids : List ℕ} {g : ℕ}
    (hg : g ∈ ids) : 0 < countRow (rowsAt srows ids) (srows.getD g []) := by
  induction ids with
  | nil => simp at hg
  | cons a as ih =>
    have hstep : countRow (rowsAt srows (a :: as)) (srows.getD g []) =
        (if srows.getD a [] = srows.getD g [] then 1 else 0) +
          countRow (rowsAt srows as) (srows.getD g []) := rfl
    rcases List.mem_cons.mp hg with h | h
    · subst h
      rw [hstep, if_pos rfl]
      omega
    · have := ih h
      rw [hstep]
      omega

theorem firstIdx_mem_unique_ids {srows : List (List ℤ)} {i : ℕ}
    (h : i < srows.length) :
    firstIdx srows (srows.getD i []) ∈ unique_ids srows := by
  have hc : 0 < countRow srows (srows.getD i []) := countRow_pos_of_getD h
  have hlt : firstIdx srows (srows.getD i []) < srows.length :=
    firstIdx_lt_length hc
  have hv : srows.getD (firstIdx srows (srows.getD i [])) [] = srows.getD i [] :=
    getD_firstIdx hc
  exact mem_unique_ids.mpr ⟨hlt, by rw [hv]⟩

theorem countRow_unique_rowvals_pos {srows : List (List ℤ)} {i : ℕ}
    (h : i < srows.length) :
    0 < countRow (unique_rowvals srows) (srows.getD i []) := by
  have hmem := firstIdx_mem_unique_ids h
  have hpos := @countRow_rowsAt_pos srows (unique_ids srows) _ hmem
  rw [getD_firstIdx (countRow_pos_of_getD h)] at hpos
  exact hpos

theorem length_unique_rowvals (srows : List (List ℤ)) :
    (unique_rowvals srows).length = (unique_ids srows).length := by
  simp [unique_rowvals, rowsAt]

/-- Alignment of the dedup outputs: for a valid row index `i`, the inverse
entry is a valid group index, the group's representative index is the first
occurrence of row `i`'s canonical value, and the representative's canonical
value agrees with row `i`'s. -/
theorem unique_alignment {srows : List (List ℤ)} {i : ℕ}
    (h : i < srows.length) :
    (unique_inverse srows).getD i 0 < (unique_ids srows).length ∧
    (unique_ids srows).getD ((unique_inverse srows).getD i 0) 0 =
      firstIdx srows (srows.getD i []) ∧
    srows.getD
      ((unique_ids srows).getD ((unique_inverse srows).getD i 0) 0) [] =
      srows.getD i [] := by
  have hinv : (unique_inverse srows).getD i 0 =
      firstIdx (unique_rowvals srows) (srows.getD i []) := by
    unfold unique_inverse
    exact getD_map_of_lt _ _ _ _ [] h
  have hcU : 0 < countRow (unique_rowvals srows) (srows.getD i []) :=
    countRow_unique_rowvals_pos h
  have hu_lt : firstIdx (unique_rowvals srows) (srows.getD i []) <
      (unique_rowvals srows).length := firstIdx_lt_length hcU
  have hu_lt' : firstIdx (unique_rowvals srows) (srows.getD i []) <
      (unique_ids srows).length := by
    rw [← length_unique_rowvals]
    exact hu_lt
  have hUval : (unique_rowvals srows).getD
      (firstIdx (unique_rowvals srows) (srows.getD i [])) [] =
      srows.getD i [] := getD_firstIdx hcU
  have hrows : (unique_rowvals srows).getD
      (firstIdx (unique_rowvals srows) (srows.getD i [])) [] =
      srows.getD ((unique_ids srows).getD
        (firstIdx (unique_rowvals srows) (srows.getD i [])) 0) [] := by
    unfold unique_rowvals rowsAt
    exact getD_map_of_lt _ _ _ _ 0 hu_lt'
  have hg_val : srows.getD ((unique_ids srows).getD
      (firstIdx (unique_rowvals srows) (srows.getD i [])) 0) [] =
      srows.getD i [] := by
    rw [← hrows]
    exact hUval
  have hg_mem : (unique_ids srows).getD
      (firstIdx (unique_rowvals srows) (srows.getD i [])) 0 ∈
      unique_ids srows := getD_mem_of_lt _ _ _ hu_lt'
  have hg_first := (mem_unique_ids.mp hg_mem).2
  rw [hg_val] at hg_first
  refine ⟨?_, ?_, ?_⟩
  · rw [hinv]
    exact hu_lt'
  · rw [hinv, ← hg_first]
  · rw [hinv]
    exact hg_val

theorem maskSelect_map_pred {α : Type} (p : α → Bool) (l : List α) :
    maskSelect l (l.map p) = l.filter p := by
  induction l with
  | nil => rfl
  | cons x xs ih =>
    by_cases hx : p x <;> simp [maskSelect, List.filter_cons, hx, ih]

theorem get_outlines_eq_filter (edges : List (List ℤ)) :
    get_outlines edges = (get_edges_unique_id edges).filter
      (fun g => decide (countRow (get_edges_sorted edges)
        ((get_edges_sorted edges).getD g []) = 1)) := by
  unfold get_outlines get_edges_unique_count unique_counts unique_rowvals rowsAt
  rw [List.map_map, List.map_map]
  exact maskSelect_map_pred _ _

/-- C1 counterexample: on the table `[[0,1],[1,0]]` the two rows share one
canonical group whose representative keeps the first row's orientation, so
reconstructing row 1 through the inverse mapping yields `[0,1]`, not the
original `[1,0]`. -/
theorem edges_unique_inverse_reconstruction_fails :
    (get_edges_unique [[0,1],[1,0]]).getD
      ((get_edges_unique_inverse [[0,1],[1,0]]).getD 1 0) [] ≠
      ([[0,1],[1,0]] : List (List ℤ)).getD 1 [] := by
  decide

/-- C1 (amended): for every connectivity table and every row index, the row
reconstructed through the inverse mapping agrees with the original row up to
orientation — their ascending-sorted forms coincide (exact element-wise
equality fails for groups holding both orientations). -/
theorem edges_unique_inverse_reconstruction_up_to_orientation
    (edges : List (List ℤ)) (i : ℕ) (h : i < edges.length) :
    sortRow ((get_edges_unique edges).getD
      ((get_edges_unique_inverse edges).getD i 0) []) =
    sortRow (edges.getD i []) := by
  have hm : (get_edges_sorted edges).length = edges.length := by
    simp [get_edges_sorted]
  have h' : i < (get_edges_sorted edges).length := by rw [hm]; exact h
  obtain ⟨h1, h2, h3⟩ := unique_alignment h'
  have hEU : (get_edges_unique edges).getD
      ((get_edges_unique_inverse edges).getD i 0) [] =
      edges.getD ((unique_ids (get_edges_sorted edges)).getD
        ((unique_inverse (get_edges_sorted edges)).getD i 0) 0) [] := by
    show (rowsAt edges (unique_ids (get_edges_sorted edges))).getD
      ((unique_inverse (get_edges_sorted edges)).getD i 0) [] = _
    unfold rowsAt
    exact getD_map_of_lt _ _ _ _ 0 h1
  have hg_mem : (unique_ids (get_edges_sorted edges)).getD
      ((unique_inverse (get_edges_sorted edges)).getD i 0) 0 ∈
      unique_ids (get_edges_sorted edges) := getD_mem_of_lt _ _ _ h1
  have hg_lt : (unique_ids (get_edges_sorted edges)).getD
      ((unique_inverse (get_edges_sorted edges)).getD i 0) 0 <
      edges.length := by
    rw [← hm]
    exact (mem_unique_ids.mp hg_mem).1
  have hsort_g : (get_edges_sorted edges).getD
      ((unique_ids (get_edges_sorted edges)).getD
        ((unique_inverse (get_edges_sorted edges)).getD i 0) 0) [] =
      sortRow (edges.getD ((unique_ids (get_edges_sorted edges)).getD
        ((unique_inverse (get_edges_sorted edges)).getD i 0) 0) []) := by
    unfold get_edges_sorted
    exact getD_map_of_lt _ _ _ _ [] hg_lt
  have hsort_i : (get_edges_sorted edges).getD i [] =
      sortRow (edges.getD i []) := by
    unfold get_edges_sorted
    exact getD_map_of_lt _ _ _ _ [] h
  rw [hEU, ← hsort_g]
  rw [← hsort_i]
  exact h3

/-- C1 witness: the amended reconstruction identity instantiated on the
table `[[0,1],[1,0]]` at row 1. -/
theorem edges_unique_inverse_reconstruction_up_to_orientation_witness :
    1 < ([[0,1],[1,0]] : List (List ℤ)).length ∧
    sortRow ((get_edges_unique [[0,1],[1,0]]).getD
      ((get_edges_unique_inverse [[0,1],[1,0]]).getD 1 0) []) =
    sortRow (([[0,1],[1,0]] : List (List ℤ)).getD 1 []) :=
  ⟨by decide,
    edges_unique_inverse_reconstruction_up_to_orientation _ 1 (by decide)⟩

/-- C2: a row index appears in `get_outlines()` iff that row's canonical
(ascending-sorted) form occurs exactly once among all rows' sorted forms;
and on `[[0,1],[1,0],[2,3]]` the outlines are exactly `[2]`, the index of
the `[2,3]` row. -/
theorem outline_ids_iff_canonical_count_one :
    (∀ (edges : List (List ℤ)) (i : ℕ), i < edges.length →
      (i ∈ get_outlines edges ↔
        countRow (get_edges_sorted edges)
          ((get_edges_sorted edges).getD i []) = 1)) ∧
    get_outlines [[0,1],[1,0],[2,3]] = [2] := by
  constructor
  · intro edges i h
    have h' : i < (get_edges_sorted edges).length := by
      simpa [get_edges_sorted] using h
    rw [get_outlines_eq_filter]
    constructor
    · intro hi
      have := (List.mem_filter.mp hi).2
      simpa using this
    · intro hc
      refine List.mem_filter.mpr ⟨?_, by simpa using hc⟩
      show i ∈ unique_ids (get_edges_sorted edges)
      exact mem_unique_ids.mpr ⟨h', firstIdx_eq_of_count_one h' hc⟩
  · decide

/-- C2 witness: the outline characterisation instantiated on
`[[0,1],[1,0],[2,3]]` at row 2. -/
theorem outline_ids_iff_canonical_count_one_witness :
    2 < ([[0,1],[1,0],[2,3]] : List (List ℤ)).length ∧
    (2 ∈ get_outlines [[0,1],[1,0],[2,3]] ↔
      countRow (get_edges_sorted [[0,1],[1,0],[2,3]])
        ((get_edges_sorted [[0,1],[1,0],[2,3]]).getD 2 []) = 1) :=
  ⟨by decide, outline_ids_iff_canonical_count_one.1 _ 2 (by decide)⟩

/-- C3: orientation preservation — if row `i`'s ascending-sorted form occurs
exactly once among all rows' sorted forms, the row reconstructed from
`get_edges_unique()` at the group of row `i` is the original row itself
(original orientation, not the sorted form). -/
theorem edges_unique_preserves_original_orientation
    (edges : List (List ℤ)) (i : ℕ) (h : i < edges.length)
    (hc : countRow (get_edges_sorted edges)
      ((get_edges_sorted edges).getD i []) = 1) :
    (get_edges_unique edges).getD
      ((get_edges_unique_inverse edges).getD i 0) [] = edges.getD i [] := by
  have hm : (get_edges_sorted edges).length = edges.length := by
    simp [get_edges_sorted]
  have h' : i < (get_edges_sorted edges).length := by rw [hm]; exact h
  obtain ⟨h1, h2, h3⟩ := unique_alignment h'
  have hEU : (get_edges_unique edges).getD
      ((get_edges_unique_inverse edges).getD i 0) [] =
      edges.getD ((unique_ids (get_edges_sorted edges)).getD
        ((unique_inverse (get_edges_sorted edges)).getD i 0) 0) [] := by
    show (rowsAt edges (unique_ids (get_edges_sorted edges))).getD
      ((unique_inverse (get_edges_sorted edges)).getD i 0) [] = _
    unfold rowsAt
    exact getD_map_of_lt _ _ _ _ 0 h1
  have hfirst : firstIdx (get_edges_sorted edges)
      ((get_edges_sorted edges).getD i []) = i :=
    firstIdx_eq_of_count_one h' hc
  rw [hEU, h2, hfirst]

/-- C3 witness: orientation preservation instantiated on `[[4,2],[0,1]]` at
row 0, whose sorted form `[2,4]` occurs once. -/
theorem edges_unique_preserves_original_orientation_witness :
    (0 < ([[4,2],[0,1]] : List (List ℤ)).length ∧
      countRow (get_edges_sorted [[4,2],[0,1]])
        ((get_edges_sorted [[4,2],[0,1]]).getD 0 []) = 1) ∧
    (get_edges_unique [[4,2],[0,1]]).getD
      ((get_edges_unique_inverse [[4,2],[0,1]]).getD 0 0) [] =
      ([[4,2],[0,1]] : List (List ℤ)).getD 0 [] :=
  ⟨⟨by decide, by decide⟩,
    edges_unique_preserves_original_orientation _ 0 (by decide) (by decide)⟩

/-- C4: `update_elements` never returns a new object — its very first
statement calls the value of the `elements` property (the stored numpy
connectivity array) as a function, so on every `Edges` object with a set
connectivity it raises `TypeError` regardless of the mask and of `inplace`,
instead of producing the mask-selected, vertex-pruned copy the spec
describes. -/
theorem update_elements_raises_type_error
    (vertices : List (List ℚ)) (es : List (List ℤ)) (mask : List Bool) :
    update_elements ⟨vertices, some es⟩ mask false =
      Except.error PyErr.typeError := by
  rfl

/-- C5 counterexample: the input `[[0,1,2]]` has row width 3 (not the
expected width 2 for edges), yet the setter raises nothing and replaces the
receiver's connectivity — contradicting the claim that every ill-shaped
input raises `ShapeError` and leaves the state unmodified. -/
theorem edges_setter_accepts_ill_shaped :
    ¬ well_shaped [[0,1,2]] ∧
    edges_setter ⟨[], none⟩ [[0,1,2]] =
      Except.ok ⟨[], some [[0,1,2]]⟩ := by
  constructor
  · decide
  · rfl

/-- C5 (amended): the `edges` setter performs no shape validation at all —
for every receiver and every rows argument, including arguments whose row
width differs from 2, it succeeds and replaces the stored connectivity with
the supplied rows; no `ShapeError` is ever raised. -/
theorem edges_setter_never_raises
    (s : Edges) (es : List (List ℤ)) (_hbad : ¬ well_shaped es) :
    edges_setter s es = Except.ok ⟨s.vertices, some es⟩ := by
  rfl

/-- C5 witness: the amended setter behaviour instantiated on the ill-shaped
input `[[0,1,2]]`. -/
theorem edges_setter_never_raises_witness :
    ¬ well_shaped [[0,1,2]] ∧
    edges_setter ⟨[[1,1]], none⟩ [[0,1,2]] =
      Except.ok ⟨[[1,1]], some [[0,1,2]]⟩ :=
  ⟨by decide, edges_setter_never_raises ⟨[[1,1]], none⟩ [[0,1,2]] (by decide)⟩

/-- C7: `shrink` never returns a shrunk object — its first statement
`elements = self.elements()` calls the stored connectivity array as a
function, so on every `Edges` object with a set connectivity it raises
`TypeError` for every ratio and `map_vertexdata` flag, instead of building
the per-element shrunk copy the spec describes. -/
theorem shrink_raises_type_error
    (vertices : List (List ℚ)) (es : List (List ℤ)) (ratio_arg : ℚ)
    (mvd : Bool) :
    shrink ⟨vertices, some es⟩ ratio_arg mvd =
      Except.error PyErr.typeError := by
  rfl

/-- C8: `subdivide` on any `Edges` object raises `NotImplementedError`
(the unsupported-operation signal), because the class attribute `kind` is
`"edge"`, not `"face"`. -/
theorem subdivide_unsupported_for_edges (s : Edges) :
    subdivide s = Except.error PyErr.notImplementedError := by
  rfl

/-- C10: in the constructor the `edges` argument takes precedence over
`elements` (when both are given the connectivity comes from `edges`), the
`edges=E` and `elements=E` construction paths produce identical objects,
and when both are omitted no connectivity is stored, so reading the `edges`
property raises `AttributeError`. -/
theorem edges_init_precedence
    (vertices : List (List ℚ)) (es other : List (List ℤ)) :
    Edges.init vertices (some es) (some other) =
      ⟨vertices, some es⟩ ∧
    Edges.init vertices (some es) none =
      Edges.init vertices none (some es) ∧
    get_edges (Edges.init vertices none none) =
      Except.error PyErr.attributeError := by
  exact ⟨rfl, rfl, rfl⟩

/-- C6 counterexample: for length 3 and spacing 2 the ratio
`length / (spacing * 1.5)` is exactly 1, where the code's
`(floor(ratio) + 1) * 3` gives 6 subdivision points while the claimed
`round_up(ratio) * 3` (with minimum 3) gives 3. -/
theorem dashed_linspaces_not_round_up :
    dashed_linspaces 3 2 = 6 ∧ dashed_linspaces_claimed 3 2 = 3 := by
  constructor
  · norm_num [dashed_linspaces]
  · norm_num [dashed_linspaces_claimed]

/-- C6 (amended): for every nonnegative edge length and positive spacing the
code chooses `(floor(length / (spacing * 1.5)) + 1) * 3` subdivision points;
this count is always at least 3, is exactly 3 for a zero-length edge (so no
division by zero occurs and the computation is a total function), and agrees
with `round_up(length / (spacing * 1.5)) * 3` whenever the ratio is not an
exact integer — at exact integer ratios the code takes one extra group of
3. -/
theorem dashed_linspaces_bounds (dist spacing : ℚ)
    (hd : 0 ≤ dist) (hs : 0 < spacing) :
    3 ≤ dashed_linspaces dist spacing ∧
    dashed_linspaces 0 spacing = 3 ∧
    ((∀ k : ℤ, dist / (spacing * (3 / 2)) ≠ (k : ℚ)) →
      dashed_linspaces dist spacing =
        ⌈dist / (spacing * (3 / 2))⌉ * 3) := by
  have hs' : 0 < spacing * (3 / 2) := by positivity
  refine ⟨?_, ?_, ?_⟩
  · have hq : (0 : ℚ) ≤ dist / (spacing * (3 / 2)) := by positivity
    have hfl : (0 : ℤ) ≤ ⌊dist / (spacing * (3 / 2))⌋ := Int.floor_nonneg.mpr hq
    unfold dashed_linspaces
    nlinarith
  · unfold dashed_linspaces
    norm_num
  · intro hnotint
    have hlt : (⌊dist / (spacing * (3 / 2))⌋ : ℚ) < dist / (spacing * (3 / 2)) := by
      rcases lt_or_eq_of_le (Int.floor_le (dist / (spacing * (3 / 2)))) with h1 | h1
      · exact h1
      · exact absurd h1.symm (hnotint ⌊dist / (spacing * (3 / 2))⌋)
    have hub : dist / (spacing * (3 / 2)) ≤
        (⌊dist / (spacing * (3 / 2))⌋ + 1 : ℤ) := by
      push_cast
      exact le_of_lt (Int.lt_floor_add_one _)
    have hceil_le : ⌈dist / (spacing * (3 / 2))⌉ ≤
        ⌊dist / (spacing * (3 / 2))⌋ + 1 := Int.ceil_le.mpr hub
    have hlt_ceil : ⌊dist / (spacing * (3 / 2))⌋ <
        ⌈dist / (spacing * (3 / 2))⌉ := by
      by_contra hcon
      push_neg at hcon
      have hcon' : (⌈dist / (spacing * (3 / 2))⌉ : ℚ) ≤
          (⌊dist / (spacing * (3 / 2))⌋ : ℚ) := by exact_mod_cast hcon
      have := le_trans (Int.le_ceil (dist / (spacing * (3 / 2)))) hcon'
      exact absurd this (not_le.mpr hlt)
    have hceq : ⌈dist / (spacing * (3 / 2))⌉ =
        ⌊dist / (spacing * (3 / 2))⌋ + 1 := le_antisymm hceil_le hlt_ceil
    unfold dashed_linspaces
    rw [hceq]

/-- C6 witness: the amended count bounds instantiated at length 3 and
spacing 2 (both hypotheses hold and the count is at least 3). -/
theorem dashed_linspaces_bounds_witness :
    ((0 : ℚ) ≤ 3 ∧ (0 : ℚ) < 2) ∧ 3 ≤ dashed_linspaces 3 2 :=
  ⟨⟨by norm_num, by norm_num⟩, (dashed_linspaces_bounds 3 2 (by norm_num) (by norm_num)).1⟩

/-! Vertex pruning (`referenced_vertices`, `remove_unreferenced_vertices`). -/

/-- Number of `true` entries of a boolean mask (`mask.sum()` in numpy). -/
def countTrue : List Bool → ℕ
  | [] => 0
  | b :: l => (if b then 1 else 0) + countTrue l

/-- The computed quantity `referenced_vertices` (edges.py lines 164-180):
a boolean mask over the point cloud, true at index `i` iff `i` appears in
some connectivity row (`referenced[self.const_elements] = True`; indices are
assumed in range, as the spec's IndexConsistencyError note records). -/
def referenced_vertices (nverts : ℕ) (edges : List (List ℤ)) : List Bool :=
  (List.range nverts).map
    (fun (i : ℕ) => edges.any (fun r => r.any (fun e => decide (e = (i : ℤ)))))

/-- Number of referenced indices strictly before position `i` of the mask:
the rank a referenced vertex receives in the compacted point cloud. -/
def trueRank (refs : List Bool) (i : ℕ) : ℕ :=
  countTrue (refs.take i)

/-- The compaction map built in `remove_unreferenced_vertices` (edges.py
lines 197-198): `inverse = np.zeros(len(vertices)); inverse[referenced] =
np.arange(referenced.sum())` — position `i` holds the rank of `i` among the
referenced indices when `i` is referenced, and the untouched zero
otherwise. -/
def compaction_inverse (refs : List Bool) : List ℕ :=
  (List.range refs.length).map
    (fun i => if refs.getD i false then trueRank refs i else 0)

/-- Modelled from the spec: `Vertices.update_vertices(mask, inverse)` (spec
6, "rebuild from a vertex mask plus index-remap"): keeps the mask-selected
points in order and remaps every connectivity entry through `inverse`. -/
def update_vertices (verts : List (List ℚ)) (edges : List (List ℤ))
    (mask : List Bool) (inverse : List ℕ) :
    List (List ℚ) × List (List ℤ) :=
  (maskSelect verts mask,
    edges.map (fun r => r.map (fun e => ((inverse.getD e.toNat 0 : ℕ) : ℤ))))

/-- The method `remove_unreferenced_vertices` (edges.py lines 182-203):
computes the referenced mask, the compaction map, and rebuilds the object
through `update_vertices`. -/
def remove_unreferenced_vertices (verts : List (List ℚ))
    (edges : List (List ℤ)) : List (List ℚ) × List (List ℤ) :=
  update_vertices verts edges (referenced_vertices verts.length edges)
    (compaction_inverse (referenced_vertices verts.length edges))

/-- Index-consistency invariant of a connectivity table over `n` points
(spec 3): every entry lies in `[0, n)`. -/
def validConn (n : ℕ) (edges : List (List ℤ)) : Prop :=
  ∀ r ∈ edges, ∀ e ∈ r, 0 ≤ e ∧ e < (n : ℤ)

instance (n : ℕ) (edges : List (List ℤ)) : Decidable (validConn n edges) := by
  unfold validConn
  infer_instance

theorem length_referenced (nverts : ℕ) (edges : List (List ℤ)) :
    (referenced_vertices nverts edges).length = nverts := by
  unfold referenced_vertices
  rw [List.length_map, List.length_range]

theorem getD_referenced {nverts : ℕ} {edges : List (List ℤ)} {i : ℕ}
    (h : i < nverts) :
    (referenced_vertices nverts edges).getD i false =
      edges.any (fun r => r.any (fun e => decide (e = (i : ℤ)))) := by
  unfold referenced_vertices
  exact getD_range_map
    (fun (i : ℕ) => edges.any (fun r => r.any (fun e => decide (e = (i : ℤ)))))
    nverts i false h

theorem getD_compaction {refs : List Bool} {i : ℕ} (h : i < refs.length) :
    (compaction_inverse refs).getD i 0 =
      if refs.getD i false then trueRank refs i else 0 :=
  getD_range_map _ _ _ _ h

theorem length_maskSelect {α : Type} :
    ∀ (l : List α) (bs : List Bool), l.length = bs.length →
      (maskSelect l bs).length = countTrue bs := by
  intro l
  induction l with
  | nil =>
    intro bs h
    cases bs with
    | nil => rfl
    | cons b bs' => simp at h
  | cons x xs ih =>
    intro bs h
    cases bs with
    | nil => simp at h
    | cons b bs' =>
      have h' : xs.length = bs'.length := by simpa using h
      by_cases hb : b = true
      · subst hb
        show (x :: maskSelect xs bs').length = 1 + countTrue bs'
        simp [ih bs' h']
        omega
      · have hb' : b = false := by simpa using hb
        subst hb'
        show (maskSelect xs bs').length = 0 + countTrue bs'
        simp [ih bs' h']

theorem trueRank_lt_countTrue {refs : List Bool} {i : ℕ}
    (h : i < refs.length) (ht : refs.getD i false = true) :
    trueRank refs i < countTrue refs := by
  induction refs generalizing i with
  | nil => simp at h
  | cons b l ih =>
    cases i with
    | zero =>
      have hb : b = true := by simpa using ht
      subst hb
      show countTrue ((true :: l).take 0) < countTrue (true :: l)
      show 0 < (if true then 1 else 0) + countTrue l
      rw [if_pos rfl]
      omega
    | succ j =>
      have hj : j < l.length := by simpa using h
      have ht' : l.getD j false = true := by simpa using ht
      have := ih hj ht'
      show countTrue (b :: l.take j) < countTrue (b :: l)
      show (if b then 1 else 0) + countTrue (l.take j) <
        (if b then 1 else 0) + countTrue l
      have hrank : countTrue (l.take j) < countTrue l := this
      omega

theorem trueRank_surj :
    ∀ (refs : List Bool) (j : ℕ), j < countTrue refs →
      ∃ i, i < refs.length ∧ refs.getD i false = true ∧
        trueRank refs i = j := by
  intro refs
  induction refs with
  | nil =>
    intro j hj
    simp [countTrue] at hj
  | cons b l ih =>
    intro j hj
    cases b with
    | false =>
      have hj' : j < countTrue l := by
        have : countTrue (false :: l) = countTrue l := by simp [countTrue]
        rwa [this] at hj
      obtain ⟨i', h1, h2, h3⟩ := ih j hj'
      refine ⟨i' + 1, by simpa using Nat.succ_lt_succ h1, by simpa using h2, ?_⟩
      show countTrue ((false :: l).take (i' + 1)) = j
      rw [List.take_succ_cons]
      show (if false then 1 else 0) + countTrue (l.take i') = j
      simpa [trueRank] using h3
    | true =>
      cases j with
      | zero => exact ⟨0, by simp, rfl, rfl⟩
      | succ j' =>
        have hj' : j' < countTrue l := by
          have hc : countTrue (true :: l) = 1 + countTrue l := by
            simp [countTrue]
          rw [hc] at hj
          omega
        obtain ⟨i', h1, h2, h3⟩ := ih j' hj'
        refine ⟨i' + 1, by simpa using Nat.succ_lt_succ h1,
          by simpa using h2, ?_⟩
        show countTrue ((true :: l).take (i' + 1)) = j' + 1
        rw [List.take_succ_cons]
        show (if true then 1 else 0) + countTrue (l.take i') = j' + 1
        have h3' : countTrue (l.take i') = j' := h3
        rw [if_pos rfl]
        omega

theorem maskSelect_of_all_true {α : Type} :
    ∀ (l : List α) (bs : List Bool), l.length = bs.length →
      (∀ j, j < bs.length → bs.getD j false = true) →
      maskSelect l bs = l := by
  intro l
  induction l with
  | nil =>
    intro bs h _
    cases bs with
    | nil => rfl
    | cons b bs' => simp at h
  | cons x xs ih =>
    intro bs hlen hall
    cases bs with
    | nil => simp at hlen
    | cons b bs' =>
      have hb : b = true := hall 0 (by simp)
      subst hb
      have hrest : maskSelect xs bs' = xs :=
        ih bs' (by simpa using hlen)
          (fun j hj => by
            simpa using hall (j + 1) (by simpa using Nat.succ_lt_succ hj))
      show x :: maskSelect xs bs' = x :: xs
      rw [hrest]

theorem trueRank_of_all_true :
    ∀ (refs : List Bool) (i : ℕ),
      (∀ j, j < refs.length → refs.getD j false = true) →
      i ≤ refs.length → trueRank refs i = i := by
  intro refs
  induction refs with
  | nil =>
    intro i _ hi
    have : i = 0 := Nat.le_zero.mp (by simpa using hi)
    subst this
    rfl
  | cons b l ih =>
    intro i hall hi
    cases i with
    | zero => rfl
    | succ i' =>
      have hb : b = true := hall 0 (by simp)
      subst hb
      have h' : trueRank l i' = i' :=
        ih i'
          (fun j hj => by
            simpa using hall (j + 1) (by simpa using Nat.succ_lt_succ hj))
          (by simpa using hi)
      show countTrue ((true :: l).take (i' + 1)) = i' + 1
      rw [List.take_succ_cons]
      show (if true then 1 else 0) + countTrue (l.take i') = i' + 1
      have h'' : countTrue (l.take i') = i' := h'
      rw [if_pos rfl]
      omega

/-- Every connectivity entry produced by `remove_unreferenced_vertices` is
the rank-cast of some referenced original index; in particular it is the
natural-number cast of some `j` strictly below the number of referenced
points. -/
theorem removal_entry_bound {verts : List (List ℚ)} {edges : List (List ℤ)}
    (hvalid : validConn verts.length edges) :
    ∀ r' ∈ (remove_unreferenced_vertices verts edges).2, ∀ e' ∈ r',
      ∃ j : ℕ, j < countTrue (referenced_vertices verts.length edges) ∧
        e' = (j : ℤ) := by
  intro r' hr' e' he'
  obtain ⟨r, hr, hrmap⟩ := List.mem_map.mp hr'
  subst hrmap
  obtain ⟨e, he, hemap⟩ := List.mem_map.mp he'
  subst hemap
  obtain ⟨he0, helt⟩ := hvalid r hr e he
  have hi : e.toNat < verts.length := by omega
  have hi' : e.toNat < (referenced_vertices verts.length edges).length := by
    rw [length_referenced]
    exact hi
  have htrue : (referenced_vertices verts.length edges).getD e.toNat false =
      true := by
    rw [getD_referenced hi]
    simp only [List.any_eq_true, decide_eq_true_eq]
    exact ⟨r, hr, e, he, by omega⟩
  refine ⟨trueRank (referenced_vertices verts.length edges) e.toNat,
    trueRank_lt_countTrue hi' htrue, ?_⟩
  have hcomp : (compaction_inverse
      (referenced_vertices verts.length edges)).getD e.toNat 0 =
      trueRank (referenced_vertices verts.length edges) e.toNat := by
    rw [getD_compaction hi', if_pos htrue]
  rw [hcomp]

/-- After one pruning pass every point of the new cloud is referenced: the
mask recomputed on the output is true at every position. -/
theorem removal_refs_all_true {verts : List (List ℚ)}
    {edges : List (List ℤ)} :
    ∀ j, j < countTrue (referenced_vertices verts.length edges) →
      (referenced_vertices
          (countTrue (referenced_vertices verts.length edges))
          (remove_unreferenced_vertices verts edges).2).getD j false =
        true := by
  intro j hj
  obtain ⟨i, hi_lt, hi_true, hi_rank⟩ :=
    trueRank_surj (referenced_vertices verts.length edges) j hj
  have hin : i < verts.length := by
    rw [length_referenced] at hi_lt
    exact hi_lt
  have hi_getd := hi_true
  rw [getD_referenced hj]
  simp only [List.any_eq_true, decide_eq_true_eq]
  rw [getD_referenced hin] at hi_true
  simp only [List.any_eq_true, decide_eq_true_eq] at hi_true
  obtain ⟨r, hr, e, he, hei⟩ := hi_true
  refine ⟨r.map (fun e => (((compaction_inverse
      (referenced_vertices verts.length edges)).getD e.toNat 0 : ℕ) : ℤ)),
    List.mem_map_of_mem _ hr,
    (((compaction_inverse
      (referenced_vertices verts.length edges)).getD e.toNat 0 : ℕ) : ℤ),
    List.mem_map_of_mem _ he, ?_⟩
  have hetn : e.toNat = i := by omega
  have hcomp : (compaction_inverse
      (referenced_vertices verts.length edges)).getD i 0 =
      trueRank (referenced_vertices verts.length edges) i := by
    rw [getD_compaction hi_lt, if_pos hi_getd]
  rw [hetn, hcomp, hi_rank]

/-- C9: `remove_unreferenced_vertices` is idempotent — on any object whose
connectivity indices are in range, applying the operation twice returns the
same vertices and connectivity as applying it once. -/
theorem remove_unreferenced_vertices_idempotent
    (verts : List (List ℚ)) (edges : List (List ℤ))
    (hvalid : validConn verts.length edges) :
    remove_unreferenced_vertices
      (remove_unreferenced_vertices verts edges).1
      (remove_unreferenced_vertices verts edges).2 =
    remove_unreferenced_vertices verts edges := by
  have hVlen : (remove_unreferenced_vertices verts edges).1.length =
      countTrue (referenced_vertices verts.length edges) :=
    length_maskSelect verts _ (length_referenced verts.length edges).symm
  have hall2 : ∀ j, j < (referenced_vertices
      (remove_unreferenced_vertices verts edges).1.length
      (remove_unreferenced_vertices verts edges).2).length →
      (referenced_vertices
        (remove_unreferenced_vertices verts edges).1.length
        (remove_unreferenced_vertices verts edges).2).getD j false = true := by
    intro j hj
    rw [length_referenced, hVlen] at hj
    rw [hVlen]
    exact removal_refs_all_true j hj
  have hfst : (remove_unreferenced_vertices
      (remove_unreferenced_vertices verts edges).1
      (remove_unreferenced_vertices verts edges).2).1 =
      (remove_unreferenced_vertices verts edges).1 := by
    show maskSelect (remove_unreferenced_vertices verts edges).1
      (referenced_vertices
        (remove_unreferenced_vertices verts edges).1.length
        (remove_unreferenced_vertices verts edges).2) =
      (remove_unreferenced_vertices verts edges).1
    exact maskSelect_of_all_true _ _ (length_referenced _ _).symm hall2
  have hsnd : (remove_unreferenced_vertices
      (remove_unreferenced_vertices verts edges).1
      (remove_unreferenced_vertices verts edges).2).2 =
      (remove_unreferenced_vertices verts edges).2 := by
    show ((remove_unreferenced_vertices verts edges).2).map
      (fun r => r.map (fun e => (((compaction_inverse
        (referenced_vertices
          (remove_unreferenced_vertices verts edges).1.length
          (remove_unreferenced_vertices verts edges).2)).getD
            e.toNat 0 : ℕ) : ℤ))) =
      (remove_unreferenced_vertices verts edges).2
    have hrow : ∀ r' ∈ (remove_unreferenced_vertices verts edges).2,
        r'.map (fun e => (((compaction_inverse
          (referenced_vertices
            (remove_unreferenced_vertices verts edges).1.length
            (remove_unreferenced_vertices verts edges).2)).getD
              e.toNat 0 : ℕ) : ℤ)) = r' := by
      intro r' hr'
      have hentry : ∀ e' ∈ r', (((compaction_inverse
          (referenced_vertices
            (remove_unreferenced_vertices verts edges).1.length
            (remove_unreferenced_vertices verts edges).2)).getD
              e'.toNat 0 : ℕ) : ℤ) = e' := by
        intro e' he'
        obtain ⟨j, hjk, hje⟩ := removal_entry_bound hvalid r' hr' e' he'
        subst hje
        rw [Int.toNat_natCast, hVlen]
        have hjlen : j < (referenced_vertices
            (countTrue (referenced_vertices verts.length edges))
            (remove_unreferenced_vertices verts edges).2).length := by
          rw [length_referenced]
          exact hjk
        have hjtrue := @removal_refs_all_true verts edges j hjk
        rw [getD_compaction hjlen, if_pos hjtrue]
        have hrank : trueRank (referenced_vertices
            (countTrue (referenced_vertices verts.length edges))
            (remove_unreferenced_vertices verts edges).2) j = j := by
          apply trueRank_of_all_true
          · intro j' hj'
            rw [length_referenced] at hj'
            exact removal_refs_all_true j' hj'
          · rw [length_referenced]
            omega
        rw [hrank]
      exact (List.map_congr_left hentry).trans (List.map_id r')
    exact (List.map_congr_left hrow).trans (List.map_id _)
  exact Prod.ext_iff.mpr ⟨hfst, hsnd⟩

/-- C9 witness: idempotence instantiated on the spec's concrete scenario 2 —
points `[[0,0],[1,0],[5,5],[9,9]]` with the single edge `[0,1]`. -/
theorem remove_unreferenced_vertices_idempotent_witness :
    validConn ([[0,0],[1,0],[5,5],[9,9]] : List (List ℚ)).length [[0,1]] ∧
    remove_unreferenced_vertices
      (remove_unreferenced_vertices [[0,0],[1,0],[5,5],[9,9]] [[0,1]]).1
      (remove_unreferenced_vertices [[0,0],[1,0],[5,5],[9,9]] [[0,1]]).2 =
    remove_unreferenced_vertices [[0,0],[1,0],[5,5],[9,9]] [[0,1]] :=
  ⟨by decide,
    remove_unreferenced_vertices_idempotent _ _ (by decide)⟩
